import Mathlib

/-!
# Verification of `earthsim/annotators.py`

A shallow embedding of the pure data manipulations performed by the
annotator classes in `src/earthsim/annotators.py`, together with proofs
of the behavioural properties claimed by the specification.

Conventions:
* Python dictionaries whose keys are fixed at construction time are
  modelled as association lists (`List (String × _)`); key order is the
  Python insertion order (first occurrence).
* Selection indices (`Selection1D.index`) are modelled as `List Int`.
* Fallible operations (`groups[0]`, dictionary lookup) return `Option`.
-/

/-! ## Group-Tagging Annotator (`PointWidgetAnnotator`)

`_group_data` is a dict from group label to the list of member indices
(`annotators.py` line 143: `self._group_data = {g: [] for g in groups}`).
-/

/-- The `_group_data` dictionary of a `PointWidgetAnnotator`: each entry is a
group label paired with its ordered list of member point indices. -/
abbrev GroupData := List (String × List Int)

/-- The labels (dictionary keys) of a group-membership map. -/
def groupKeys (gd : GroupData) : List String := gd.map (fun p => p.1)

/-- `annotators.py` lines 149-150: append `idx` to the active group's list
unless it is already a member
(`if idx not in self._group_data[self.group]: ... .append(idx)`). -/
def appendIfAbsent (l : List Int) (idx : Int) : List Int :=
  if idx ∈ l then l else l ++ [idx]

/-- Update the dictionary entry of the active group by `appendIfAbsent`
(the dict has at most one entry per key, so the map touches at most one). -/
def assignActive (active : String) (idx : Int) (gd : GroupData) : GroupData :=
  gd.map (fun p => if p.1 = active then (p.1, appendIfAbsent p.2 idx) else p)

/-- `annotators.py` lines 151-153: for every group other than the active one,
drop all currently selected indices from its member list
(`self._group_data[g] = [idx for idx in inds if idx not in new_index]`).
Each entry's new value depends only on its own old value, so the in-place
dict loop is equivalent to this simultaneous map. -/
def removeSelectedFromOthers (active : String) (sel : List Int) (gd : GroupData) : GroupData :=
  gd.map (fun p =>
    if p.1 = active then p else (p.1, p.2.filter (fun j => decide (j ∉ sel))))

/-- One iteration of the outer loop of `add_group` (lines 148-153), for a
single selected index `idx`: first the conditional append to the active
group, then the removal pass over all other groups. -/
def addGroupStep (active : String) (sel : List Int) (gd : GroupData) (idx : Int) : GroupData :=
  removeSelectedFromOthers active sel (assignActive active idx gd)

/-- `PointWidgetAnnotator.add_group` (`annotators.py` lines 146-154): iterate
the per-index step over the externally tracked selection `new_index`. -/
def add_group (sel : List Int) (active : String) (gd : GroupData) : GroupData :=
  sel.foldl (fun gd idx => addGroupStep active sel gd idx) gd

/-- `annotators.py` line 143: `self._group_data = {g: [] for g in groups}` —
a dict comprehension; duplicate labels collapse onto the first occurrence. -/
def initGroupData (groups : List String) : GroupData :=
  groups.foldl
    (fun gd g => if gd.any (fun p => p.1 = g) then gd else gd ++ [(g, [])]) []

/-- `annotators.py` line 141: `group_param.default = groups[0]` — the first
supplied label becomes the default active group (`none` models the
`IndexError` on an empty list). -/
def defaultActiveGroup (groups : List String) : Option String := groups.head?

/-- A sequence of `add_group` actions, each given by the selection read from
the selection stream and the currently active group. -/
def runActions (acts : List (List Int × String)) (gd : GroupData) : GroupData :=
  acts.foldl (fun gd a => add_group a.1 a.2 gd) gd

/-- Total number of occurrences of index `i` across all membership lists. -/
def occCount (gd : GroupData) (i : Int) : Nat :=
  (gd.map (fun p => p.2.count i)).sum

/-! ### Basic lemmas about the group-membership operations -/

/-- The per-index loop body acts entrywise on the dictionary: the active
group's list gets the conditional append, every other list is filtered. -/
def stepEntry (active : String) (sel : List Int) (idx : Int)
    (p : String × List Int) : String × List Int :=
  if p.1 = active then (p.1, appendIfAbsent p.2 idx)
  else (p.1, p.2.filter (fun j => decide (j ∉ sel)))

theorem addGroupStep_eq_map (active : String) (sel : List Int) (gd : GroupData) (idx : Int) :
    addGroupStep active sel gd idx = gd.map (stepEntry active sel idx) := by
  unfold addGroupStep assignActive removeSelectedFromOthers
  rw [List.map_map]
  apply List.map_congr_left
  intro p _
  by_cases h : p.1 = active <;> simp [stepEntry, h, Function.comp]

theorem addGroupStep_cons (active : String) (sel : List Int) (p : String × List Int)
    (gd : GroupData) (idx : Int) :
    addGroupStep active sel (p :: gd) idx =
      stepEntry active sel idx p :: addGroupStep active sel gd idx := by
  rw [addGroupStep_eq_map, List.map_cons, addGroupStep_eq_map]

theorem occCount_nil (i : Int) : occCount [] i = 0 := rfl

theorem occCount_cons (p : String × List Int) (gd : GroupData) (i : Int) :
    occCount (p :: gd) i = p.2.count i + occCount gd i := by
  simp [occCount]

theorem groupKeys_addGroupStep (active : String) (sel : List Int) (gd : GroupData) (idx : Int) :
    groupKeys (addGroupStep active sel gd idx) = groupKeys gd := by
  rw [addGroupStep_eq_map]
  unfold groupKeys
  rw [List.map_map]
  apply List.map_congr_left
  intro p _
  by_cases h : p.1 = active <;> simp [stepEntry, h, Function.comp]

theorem groupKeys_foldl_step (active : String) (sel : List Int) :
    ∀ (l : List Int) (gd : GroupData),
      groupKeys (l.foldl (fun gd idx => addGroupStep active sel gd idx) gd) = groupKeys gd := by
  intro l
  induction l with
  | nil => intro gd; rfl
  | cons x xs ih =>
      intro gd
      rw [List.foldl_cons, ih, groupKeys_addGroupStep]

theorem groupKeys_add_group (sel : List Int) (active : String) (gd : GroupData) :
    groupKeys (add_group sel active gd) = groupKeys gd :=
  groupKeys_foldl_step active sel sel gd

theorem runActions_cons (a : List Int × String) (acts : List (List Int × String))
    (gd : GroupData) :
    runActions (a :: acts) gd = runActions acts (add_group a.1 a.2 gd) := rfl

theorem groupKeys_runActions (acts : List (List Int × String)) (gd : GroupData) :
    groupKeys (runActions acts gd) = groupKeys gd := by
  induction acts generalizing gd with
  | nil => rfl
  | cons a acts ih => rw [runActions_cons, ih, groupKeys_add_group]

theorem initGroupData_keys_mem_aux (groups : List String) :
    ∀ (acc : GroupData) (g : String),
      g ∈ groupKeys (groups.foldl
        (fun gd x => if gd.any (fun p => p.1 = x) then gd else gd ++ [(x, [])]) acc) ↔
      (g ∈ groupKeys acc ∨ g ∈ groups) := by
  induction groups with
  | nil => intro acc g; simp
  | cons x xs ih =>
      intro acc g
      rw [List.foldl_cons]
      by_cases h : acc.any (fun p => p.1 = x)
      · rw [if_pos h, ih]
        have hx : x ∈ groupKeys acc := by
          obtain ⟨p, hp, hpx⟩ := List.any_eq_true.mp h
          exact List.mem_map.mpr ⟨p, hp, of_decide_eq_true hpx⟩
        constructor
        · rintro (hacc | hxs)
          · exact Or.inl hacc
          · exact Or.inr (List.mem_cons_of_mem _ hxs)
        · rintro (hacc | hgx)
          · exact Or.inl hacc
          · rcases List.mem_cons.mp hgx with rfl | hxs
            · exact Or.inl hx
            · exact Or.inr hxs
      · rw [if_neg h, ih]
        simp only [groupKeys, List.map_append, List.mem_append, List.map_cons, List.map_nil,
          List.mem_cons, List.mem_singleton, List.not_mem_nil, or_false]
        tauto

theorem initGroupData_keys_mem (groups : List String) (g : String) :
    g ∈ groupKeys (initGroupData groups) ↔ g ∈ groups := by
  have h := initGroupData_keys_mem_aux groups [] g
  simpa [initGroupData, groupKeys] using h

theorem initGroupData_keys_nodup_aux (groups : List String) :
    ∀ acc : GroupData, (groupKeys acc).Nodup →
      (groupKeys (groups.foldl
        (fun gd x => if gd.any (fun p => p.1 = x) then gd else gd ++ [(x, [])]) acc)).Nodup := by
  induction groups with
  | nil => intro acc hacc; exact hacc
  | cons x xs ih =>
      intro acc hacc
      rw [List.foldl_cons]
      by_cases h : acc.any (fun p => p.1 = x)
      · rw [if_pos h]; exact ih acc hacc
      · rw [if_neg h]
        apply ih
        have hx : x ∉ groupKeys acc := by
          intro hmem
          obtain ⟨p, hp, hpx⟩ := List.mem_map.mp hmem
          exact h (List.any_eq_true.mpr ⟨p, hp, decide_eq_true hpx⟩)
        simp only [groupKeys, List.map_append, List.map_cons, List.map_nil]
        rw [List.nodup_append]
        refine ⟨hacc, List.nodup_singleton x, ?_⟩
        intro a ha hax
        rw [List.mem_singleton] at hax
        exact hx (hax ▸ ha)

theorem initGroupData_keys_nodup (groups : List String) :
    (groupKeys (initGroupData groups)).Nodup :=
  initGroupData_keys_nodup_aux groups [] List.nodup_nil

theorem initGroupData_snd_aux (groups : List String) :
    ∀ acc : GroupData, (∀ p ∈ acc, p.2 = ([] : List Int)) →
      ∀ p ∈ groups.foldl
        (fun gd x => if gd.any (fun q => q.1 = x) then gd else gd ++ [(x, [])]) acc,
        p.2 = ([] : List Int) := by
  induction groups with
  | nil => intro acc hacc; exact hacc
  | cons x xs ih =>
      intro acc hacc
      rw [List.foldl_cons]
      by_cases h : acc.any (fun q => q.1 = x)
      · rw [if_pos h]; exact ih acc hacc
      · rw [if_neg h]
        apply ih
        intro p hp
        rcases List.mem_append.mp hp with hmem | hmem
        · exact hacc p hmem
        · rw [List.mem_singleton.mp hmem]

theorem occCount_initGroupData (groups : List String) (i : Int) :
    occCount (initGroupData groups) i = 0 := by
  apply List.sum_eq_zero
  intro x hx
  obtain ⟨p, hp, rfl⟩ := List.mem_map.mp hx
  rw [initGroupData_snd_aux groups [] (by intro p hp; cases hp) p hp]
  rfl

/-! ### Counting lemmas for the membership invariant -/

theorem count_appendIfAbsent_ne (l : List Int) (idx i : Int) (h : i ≠ idx) :
    (appendIfAbsent l idx).count i = l.count i := by
  unfold appendIfAbsent
  split
  · rfl
  · rw [List.count_append]
    have h0 : List.count i [idx] = 0 := by
      rw [List.count_eq_zero]
      simp [h]
    rw [h0, Nat.add_zero]

theorem count_appendIfAbsent_le_one (l : List Int) (idx : Int) (h : l.count idx ≤ 1) :
    (appendIfAbsent l idx).count idx ≤ 1 := by
  unfold appendIfAbsent
  split
  · exact h
  · next hmem =>
      rw [List.count_append, List.count_eq_zero.mpr hmem]
      simp

theorem count_filter_not_sel (sel l : List Int) (i : Int) (h : i ∈ sel) :
    (l.filter (fun j => decide (j ∉ sel))).count i = 0 := by
  rw [List.count_eq_zero]
  intro hmem
  rw [List.mem_filter] at hmem
  exact (of_decide_eq_true hmem.2) h

theorem count_filter_le (p : Int → Bool) (l : List Int) (i : Int) :
    (l.filter p).count i ≤ l.count i :=
  (List.filter_sublist l).count_le i

theorem occCount_addGroupStep_ne (active : String) (sel : List Int) (idx i : Int)
    (h : i ≠ idx) (gd : GroupData) :
    occCount (addGroupStep active sel gd idx) i ≤ occCount gd i := by
  induction gd with
  | nil => rw [addGroupStep_eq_map, List.map_nil]
  | cons p gd ih =>
      rw [addGroupStep_cons, occCount_cons, occCount_cons]
      apply Nat.add_le_add _ ih
      unfold stepEntry
      by_cases hp : p.1 = active
      · rw [if_pos hp]
        rw [count_appendIfAbsent_ne _ _ _ h]
      · rw [if_neg hp]
        exact count_filter_le _ _ _

theorem occCount_addGroupStep_no_active (active : String) (sel : List Int) (idx i : Int)
    (hi : i ∈ sel) (gd : GroupData) (h : ∀ p ∈ gd, p.1 ≠ active) :
    occCount (addGroupStep active sel gd idx) i = 0 := by
  induction gd with
  | nil => rw [addGroupStep_eq_map, List.map_nil]; rfl
  | cons p gd ih =>
      rw [addGroupStep_cons, occCount_cons]
      unfold stepEntry
      rw [if_neg (h p (List.mem_cons_self _ _))]
      rw [count_filter_not_sel _ _ _ hi, ih (fun q hq => h q (List.mem_cons_of_mem _ hq))]

theorem occCount_addGroupStep_self (active : String) (sel : List Int) (idx : Int)
    (hidx : idx ∈ sel) (gd : GroupData) (hnd : (groupKeys gd).Nodup)
    (hocc : occCount gd idx ≤ 1) :
    occCount (addGroupStep active sel gd idx) idx ≤ 1 := by
  induction gd with
  | nil => rw [addGroupStep_eq_map, List.map_nil]; exact Nat.zero_le _
  | cons p gd ih =>
      rw [occCount_cons] at hocc
      simp only [groupKeys, List.map_cons, List.nodup_cons] at hnd
      rw [addGroupStep_cons, occCount_cons]
      unfold stepEntry
      by_cases hp : p.1 = active
      · rw [if_pos hp]
        have hzero : occCount (addGroupStep active sel gd idx) idx = 0 := by
          apply occCount_addGroupStep_no_active active sel idx idx hidx gd
          intro q hq hqa
          exact hnd.1 (List.mem_map.mpr ⟨q, hq, hqa.trans hp.symm ▸ rfl⟩)
        rw [hzero]
        have h1 : p.2.count idx ≤ 1 := Nat.le_trans (Nat.le_add_right _ _) hocc
        simpa using count_appendIfAbsent_le_one p.2 idx h1
      · rw [if_neg hp]
        rw [count_filter_not_sel _ _ _ hidx]
        simp only [Nat.zero_add]
        exact ih hnd.2 (Nat.le_trans (Nat.le_add_left _ _) hocc)

theorem occCount_addGroupStep_le_one (active : String) (sel : List Int) (idx : Int)
    (hidx : idx ∈ sel) (gd : GroupData) (hnd : (groupKeys gd).Nodup)
    (hocc : ∀ i, occCount gd i ≤ 1) (i : Int) :
    occCount (addGroupStep active sel gd idx) i ≤ 1 := by
  by_cases h : i = idx
  · subst h
    exact occCount_addGroupStep_self active sel i hidx gd hnd (hocc i)
  · exact Nat.le_trans (occCount_addGroupStep_ne active sel idx i h gd) (hocc i)

theorem foldl_step_invariant (active : String) (sel : List Int) :
    ∀ (l : List Int), (∀ x ∈ l, x ∈ sel) → ∀ gd : GroupData,
      (groupKeys gd).Nodup → (∀ i, occCount gd i ≤ 1) →
      (groupKeys (l.foldl (fun gd idx => addGroupStep active sel gd idx) gd)).Nodup ∧
      (∀ i, occCount (l.foldl (fun gd idx => addGroupStep active sel gd idx) gd) i ≤ 1) := by
  intro l
  induction l with
  | nil => intro _ gd hnd hocc; exact ⟨hnd, hocc⟩
  | cons x xs ih =>
      intro hl gd hnd hocc
      rw [List.foldl_cons]
      apply ih (fun y hy => hl y (List.mem_cons_of_mem _ hy))
      · rw [groupKeys_addGroupStep]; exact hnd
      · exact occCount_addGroupStep_le_one active sel x (hl x (List.mem_cons_self _ _)) gd hnd hocc

theorem add_group_invariant (sel : List Int) (active : String) (gd : GroupData)
    (hnd : (groupKeys gd).Nodup) (hocc : ∀ i, occCount gd i ≤ 1) :
    (groupKeys (add_group sel active gd)).Nodup ∧
    (∀ i, occCount (add_group sel active gd) i ≤ 1) :=
  foldl_step_invariant active sel sel (fun _ h => h) gd hnd hocc

theorem runActions_invariant :
    ∀ (acts : List (List Int × String)) (gd : GroupData),
      (groupKeys gd).Nodup → (∀ i, occCount gd i ≤ 1) →
      (groupKeys (runActions acts gd)).Nodup ∧
      (∀ i, occCount (runActions acts gd) i ≤ 1) := by
  intro acts
  induction acts with
  | nil => intro gd h1 h2; exact ⟨h1, h2⟩
  | cons a acts ih =>
      intro gd h1 h2
      rw [runActions_cons]
      obtain ⟨h1', h2'⟩ := add_group_invariant a.1 a.2 gd h1 h2
      exact ih _ h1' h2'

theorem occCount_le_one_entry (gd : GroupData) (i : Int) (h : occCount gd i ≤ 1) :
    ∀ p ∈ gd, p.2.count i ≤ 1 := by
  intro p hp
  have hle : p.2.count i ≤ occCount gd i :=
    List.single_le_sum (fun _ _ => Nat.zero_le _) _
      (List.mem_map_of_mem (fun p => p.2.count i) hp)
  exact Nat.le_trans hle h

theorem occCount_le_one_pairwise (i : Int) :
    ∀ gd : GroupData, occCount gd i ≤ 1 →
      gd.Pairwise (fun p q => i ∈ p.2 → i ∉ q.2) := by
  intro gd
  induction gd with
  | nil => intro _; exact List.Pairwise.nil
  | cons p gd ih =>
      intro h
      rw [occCount_cons] at h
      constructor
      · intro q hq hip hiq
        have hppos : 0 < p.2.count i := List.count_pos_iff.mpr hip
        have hqpos : 0 < q.2.count i := List.count_pos_iff.mpr hiq
        have hqle : q.2.count i ≤ occCount gd i :=
          List.single_le_sum (fun _ _ => Nat.zero_le _) _
            (List.mem_map_of_mem (fun p => p.2.count i) hq)
        omega
      · exact ih (Nat.le_trans (Nat.le_add_left _ _) h)

/-! ### Membership lemmas: last assignment wins -/

theorem mem_appendIfAbsent_self (l : List Int) (idx : Int) : idx ∈ appendIfAbsent l idx := by
  unfold appendIfAbsent
  split
  · assumption
  · exact List.mem_append_right _ (List.mem_singleton.mpr rfl)

theorem mem_appendIfAbsent_of_mem (l : List Int) (idx i : Int) (h : i ∈ l) :
    i ∈ appendIfAbsent l idx := by
  unfold appendIfAbsent
  split
  · exact h
  · exact List.mem_append_left _ h

theorem stepEntry_active_self (active : String) (sel : List Int) (idx : Int)
    (p : String × List Int) (hpa : p.1 = active) :
    idx ∈ (stepEntry active sel idx p).2 := by
  unfold stepEntry
  rw [if_pos hpa]
  exact mem_appendIfAbsent_self p.2 idx

theorem stepEntry_active_mono (active : String) (sel : List Int) (idx i : Int)
    (p : String × List Int) (hpa : p.1 = active) (h : i ∈ p.2) :
    i ∈ (stepEntry active sel idx p).2 := by
  unfold stepEntry
  rw [if_pos hpa]
  exact mem_appendIfAbsent_of_mem p.2 idx i h

theorem stepEntry_fst (active : String) (sel : List Int) (idx : Int)
    (p : String × List Int) : (stepEntry active sel idx p).1 = p.1 := by
  unfold stepEntry
  split <;> rfl

theorem stepEntry_other_not_mem (active : String) (sel : List Int) (idx i : Int)
    (p : String × List Int) (hpa : p.1 ≠ active) (hi : i ∈ sel) :
    i ∉ (stepEntry active sel idx p).2 := by
  unfold stepEntry
  rw [if_neg hpa]
  intro hmem
  rw [List.mem_filter] at hmem
  exact (of_decide_eq_true hmem.2) hi

theorem addGroupStep_active_mem (active : String) (sel : List Int) (idx i : Int)
    (gd : GroupData) (h : ∀ p ∈ gd, p.1 = active → i ∈ p.2) :
    ∀ p ∈ addGroupStep active sel gd idx, p.1 = active → i ∈ p.2 := by
  intro p hp hpa
  rw [addGroupStep_eq_map] at hp
  obtain ⟨q, hq, rfl⟩ := List.mem_map.mp hp
  have hqa : q.1 = active := (stepEntry_fst active sel idx q) ▸ hpa
  exact stepEntry_active_mono active sel idx i q hqa (h q hq hqa)

theorem addGroupStep_active_self_mem (active : String) (sel : List Int) (idx : Int)
    (gd : GroupData) :
    ∀ p ∈ addGroupStep active sel gd idx, p.1 = active → idx ∈ p.2 := by
  intro p hp hpa
  rw [addGroupStep_eq_map] at hp
  obtain ⟨q, hq, rfl⟩ := List.mem_map.mp hp
  exact stepEntry_active_self active sel idx q ((stepEntry_fst active sel idx q) ▸ hpa)

theorem addGroupStep_other_not_mem (active : String) (sel : List Int) (idx i : Int)
    (gd : GroupData) (hi : i ∈ sel) :
    ∀ p ∈ addGroupStep active sel gd idx, p.1 ≠ active → i ∉ p.2 := by
  intro p hp hpa
  rw [addGroupStep_eq_map] at hp
  obtain ⟨q, hq, rfl⟩ := List.mem_map.mp hp
  exact stepEntry_other_not_mem active sel idx i q
    (fun hqa => hpa ((stepEntry_fst active sel idx q) ▸ hqa)) hi

theorem foldl_step_active_preserved (active : String) (sel : List Int) (i : Int) :
    ∀ (l : List Int) (gd : GroupData), (∀ p ∈ gd, p.1 = active → i ∈ p.2) →
      ∀ p ∈ l.foldl (fun gd idx => addGroupStep active sel gd idx) gd,
        p.1 = active → i ∈ p.2 := by
  intro l
  induction l with
  | nil => intro gd h; exact h
  | cons x xs ih =>
      intro gd h
      rw [List.foldl_cons]
      exact ih _ (addGroupStep_active_mem active sel x i gd h)

theorem foldl_step_active_mem (active : String) (sel : List Int) (i : Int) :
    ∀ (l : List Int) (gd : GroupData), i ∈ l →
      ∀ p ∈ l.foldl (fun gd idx => addGroupStep active sel gd idx) gd,
        p.1 = active → i ∈ p.2 := by
  intro l
  induction l with
  | nil => intro gd h; cases h
  | cons x xs ih =>
      intro gd hmem
      rw [List.foldl_cons]
      rcases List.mem_cons.mp hmem with rfl | htail
      · exact foldl_step_active_preserved active sel i xs _
          (addGroupStep_active_self_mem active sel i gd)
      · exact ih _ htail

theorem foldl_step_other_not_mem (active : String) (sel : List Int) (i : Int) (hi : i ∈ sel) :
    ∀ (l : List Int) (gd : GroupData), l ≠ [] →
      ∀ p ∈ l.foldl (fun gd idx => addGroupStep active sel gd idx) gd,
        p.1 ≠ active → i ∉ p.2 := by
  intro l
  induction l with
  | nil => intro gd h; exact absurd rfl h
  | cons x xs ih =>
      intro gd _
      rw [List.foldl_cons]
      by_cases hxs : xs = []
      · subst hxs
        simp only [List.foldl_nil]
        exact addGroupStep_other_not_mem active sel x i gd hi
      · exact ih _ hxs

theorem add_group_active_mem (sel : List Int) (active : String) (gd : GroupData)
    (i : Int) (hi : i ∈ sel) :
    ∀ p ∈ add_group sel active gd, p.1 = active → i ∈ p.2 :=
  foldl_step_active_mem active sel i sel gd hi

theorem add_group_other_not_mem (sel : List Int) (active : String) (gd : GroupData)
    (i : Int) (hi : i ∈ sel) :
    ∀ p ∈ add_group sel active gd, p.1 ≠ active → i ∉ p.2 :=
  foldl_step_other_not_mem active sel i hi sel gd (List.ne_nil_of_mem hi)

/-! ### Claim theorems for the Group-Tagging Annotator -/

/-- C1: after any sequence of `add_group` actions (each reading an arbitrary
selection index list and an arbitrary active group) starting from the freshly
constructed membership map, every shape index occurs in at most one group's
membership list, and at most once within that list. -/
theorem add_group_index_exclusive (acts : List (List Int × String))
    (groups : List String) (i : Int) :
    (∀ p ∈ runActions acts (initGroupData groups), p.2.count i ≤ 1) ∧
    (runActions acts (initGroupData groups)).Pairwise
      (fun p q => i ∈ p.2 → i ∉ q.2) := by
  have h := runActions_invariant acts (initGroupData groups)
    (initGroupData_keys_nodup groups)
    (fun j => by rw [occCount_initGroupData]; exact Nat.zero_le _)
  exact ⟨occCount_le_one_entry _ i (h.2 i), occCount_le_one_pairwise i _ (h.2 i)⟩

/-- C3: assigning index `i` to group `A` and then to a distinct group `B`
leaves `i` a member of `B`'s list and of no other group's list. -/
theorem add_group_last_assignment_wins (i : Int) (A B : String) (gd : GroupData)
    (hAB : A ≠ B) (hB : B ∈ groupKeys gd) :
    (∃ p ∈ add_group [i] B (add_group [i] A gd), p.1 = B ∧ i ∈ p.2) ∧
    (∀ p ∈ add_group [i] B (add_group [i] A gd), p.1 ≠ B → i ∉ p.2) := by
  constructor
  · have hkeys : B ∈ groupKeys (add_group [i] B (add_group [i] A gd)) := by
      rw [groupKeys_add_group, groupKeys_add_group]
      exact hB
    obtain ⟨p, hp, hpB⟩ := List.mem_map.mp hkeys
    exact ⟨p, hp, hpB,
      add_group_active_mem [i] B _ i (List.mem_singleton.mpr rfl) p hp hpB⟩
  · intro p hp hpB
    exact add_group_other_not_mem [i] B _ i (List.mem_singleton.mpr rfl) p hp hpB

/-- Witness for C3 at a concrete input: groups `["A", "B"]`, index `3`
assigned first to `"A"`, then to `"B"`. -/
theorem add_group_last_assignment_wins_witness :
    (("A" : String) ≠ "B") ∧ ("B" ∈ groupKeys (initGroupData ["A", "B"])) ∧
    ((∃ p ∈ add_group [3] "B" (add_group [3] "A" (initGroupData ["A", "B"])),
        p.1 = "B" ∧ (3 : Int) ∈ p.2) ∧
     (∀ p ∈ add_group [3] "B" (add_group [3] "A" (initGroupData ["A", "B"])),
        p.1 ≠ "B" → (3 : Int) ∉ p.2)) :=
  ⟨by decide, by decide,
    add_group_last_assignment_wins 3 "A" "B" (initGroupData ["A", "B"])
      (by decide) (by decide)⟩

/-- C4: constructing a `PointWidgetAnnotator` with `groups=['A','B']` makes
`'A'` the default active group and every membership list empty; with indices
`[2, 5]` selected and `'A'` active, one `add_group` action yields the
membership map `{'A': [2, 5], 'B': []}`. -/
theorem construct_and_assign_scenario :
    defaultActiveGroup ["A", "B"] = some "A" ∧
    initGroupData ["A", "B"] = [("A", []), ("B", [])] ∧
    add_group [2, 5] "A" (initGroupData ["A", "B"]) = [("A", [2, 5]), ("B", [])] := by
  refine ⟨rfl, by decide, by decide⟩

/-- C8: an `add_group` action performed while the selection is empty leaves
the whole membership map (hence every group's list) unchanged. -/
theorem add_group_empty_selection (gd : GroupData) (active : String) :
    add_group [] active gd = gd := rfl

/-- C10: `add_group` actions never add, remove or rename groups — after any
sequence of actions the dictionary keys are exactly the ones built at
construction, i.e. (as a set) the labels supplied at construction. -/
theorem group_labels_constant (acts : List (List Int × String)) (groups : List String) :
    groupKeys (runActions acts (initGroupData groups)) =
      groupKeys (initGroupData groups) ∧
    (∀ g, g ∈ groupKeys (runActions acts (initGroupData groups)) ↔ g ∈ groups) := by
  refine ⟨groupKeys_runActions acts (initGroupData groups), ?_⟩
  intro g
  rw [groupKeys_runActions]
  exact initGroupData_keys_mem groups g

/-! ## Geometry Adapter (`poly_to_geopandas`, `annotators.py` lines 27-46)

The function iterates over `polys.geom()` (one shapely geometry per drawn
shape, in order), builds for each the Python dict
`dict({c: '' for c in columns}, geometry=g)`, and hands the list of dicts to
`gpd.GeoDataFrame(rows, columns=columns+['geometry'])`, which selects the
named columns from each dict (a missing key would become a missing value).
Geometries are opaque here, modelled by a type parameter `γ`; a cell is
either an attribute string or a geometry. -/

/-- A cell of the output table: an attribute value (string) or a geometry. -/
abbrev GeoCell (γ : Type) := String ⊕ γ

/-- Lookup in a Python dict built by a sequence of key/value assignments:
the value of the last assignment to the key wins (comprehension entries
first, then the `geometry=g` keyword which overrides any earlier binding). -/
def dictLookup {α : Type} (pairs : List (String × α)) (c : String) : Option α :=
  (pairs.reverse.find? (fun p => decide (p.1 = c))).map (fun p => p.2)

/-- The assignment sequence of the row dict built at `annotators.py` line 45:
`dict({c: '' for c in columns}, geometry=g)`. -/
def polyRowPairs {γ : Type} (columns : List String) (g : γ) : List (String × GeoCell γ) :=
  columns.map (fun c => (c, Sum.inl "")) ++ [("geometry", Sum.inr g)]

/-- `poly_to_geopandas` (`annotators.py` lines 27-46): header of the produced
dataframe, and its rows, each row listing the dict's value at every selected
column, in the order `columns + ['geometry']`. -/
def poly_to_geopandas {γ : Type} (geoms : List γ) (columns : List String) :
    List String × List (List (Option (GeoCell γ))) :=
  (columns ++ ["geometry"],
   geoms.map (fun g =>
     (columns ++ ["geometry"]).map (fun c => dictLookup (polyRowPairs columns g) c)))

theorem dictLookup_append_single {α : Type} (l : List (String × α)) (k : String)
    (v : α) (c : String) :
    dictLookup (l ++ [(k, v)]) c = if c = k then some v else dictLookup l c := by
  unfold dictLookup
  rw [List.reverse_append]
  simp only [List.reverse_singleton, List.singleton_append, List.find?]
  by_cases h : c = k
  · rw [if_pos h]
    have : decide ((k, v).1 = c) = true := decide_eq_true (h ▸ rfl)
    rw [this]
    rfl
  · rw [if_neg h]
    have : decide ((k, v).1 = c) = false :=
      decide_eq_false (fun hk => h (hk ▸ rfl))
    rw [this]
    rfl

theorem find_map_const_value {α : Type} (v : α) (c : String) :
    ∀ m : List String,
      (m.map (fun x => (x, v))).find? (fun p => decide (p.1 = c)) =
        if c ∈ m then some (c, v) else none := by
  intro m
  induction m with
  | nil => rfl
  | cons x xs ih =>
      rw [List.map_cons, List.find?]
      by_cases h : x = c
      · subst h
        rw [decide_eq_true rfl]
        simp
      · rw [decide_eq_false h]
        rw [ih]
        by_cases hm : c ∈ xs
        · rw [if_pos hm, if_pos (List.mem_cons_of_mem _ hm)]
        · rw [if_neg hm, if_neg (fun hc => by
            rcases List.mem_cons.mp hc with rfl | hc
            · exact h rfl
            · exact hm hc)]

theorem dictLookup_map_const {α : Type} (v : α) (c : String) (m : List String) :
    dictLookup (m.map (fun x => (x, v))) c = if c ∈ m then some v else none := by
  unfold dictLookup
  rw [← List.map_reverse, find_map_const_value]
  by_cases h : c ∈ m
  · rw [if_pos (List.mem_reverse.mpr h), if_pos h]
    rfl
  · rw [if_neg (fun hc => h (List.mem_reverse.mp hc)), if_neg h]
    rfl

theorem dictLookup_polyRowPairs_geometry {γ : Type} (columns : List String) (g : γ) :
    dictLookup (polyRowPairs columns g) "geometry" = some (Sum.inr g) := by
  unfold polyRowPairs
  rw [dictLookup_append_single, if_pos rfl]

theorem dictLookup_polyRowPairs_attr {γ : Type} (columns : List String) (g : γ)
    (c : String) (hc : c ∈ columns) (hg : c ≠ "geometry") :
    dictLookup (polyRowPairs columns g) c = some (Sum.inl "") := by
  unfold polyRowPairs
  rw [dictLookup_append_single, if_neg hg, dictLookup_map_const, if_pos hc]

/-- C5 counterexample: the original claim quantifies over *every* list of
attribute column names, but with `columns = ['geometry']` the `geometry=g`
keyword argument of the row dict overrides the comprehension's empty string
(`dict({'geometry': ''}, geometry=g) = {'geometry': g}`), so the attribute
column holds the geometry rather than the empty string: the row is
`[g, g]`, not `['', g]`. -/
theorem poly_to_geopandas_geometry_column_counterexample :
    (poly_to_geopandas [7] ["geometry"]).2 =
      [[some (Sum.inr 7), some (Sum.inr (7 : Nat))]] ∧
    (poly_to_geopandas [7] ["geometry"]).2 ≠
      [7].map (fun g : Nat =>
        ["geometry"].map (fun _ => some (Sum.inl "")) ++ [some (Sum.inr g)]) := by
  exact ⟨rfl, by decide⟩

/-- C5 (amended): for every list of attribute column names *not containing*
`'geometry'`, the adapter's output has header `columns ++ ['geometry']`,
exactly one row per input geometry; each row holds the empty string in every
attribute column and the original geometry in the geometry column; an empty
geometry collection yields an empty table with the same header. (If a column
is itself named `'geometry'`, the geometry keyword overrides the empty
string and that column holds the geometry instead.) -/
theorem poly_to_geopandas_spec {γ : Type} (geoms : List γ) (columns : List String)
    (hg : "geometry" ∉ columns) :
    (poly_to_geopandas geoms columns).1 = columns ++ ["geometry"] ∧
    (poly_to_geopandas geoms columns).2.length = geoms.length ∧
    (poly_to_geopandas geoms columns).2 =
      geoms.map (fun g =>
        columns.map (fun _ => some (Sum.inl "")) ++ [some (Sum.inr g)]) ∧
    (poly_to_geopandas ([] : List γ) columns).2 = [] := by
  refine ⟨rfl, by simp [poly_to_geopandas], ?_, rfl⟩
  unfold poly_to_geopandas
  simp only
  apply List.map_congr_left
  intro g _
  rw [List.map_append]
  congr 1
  · apply List.map_congr_left
    intro c hc
    rw [dictLookup_polyRowPairs_attr columns g c hc (fun h => hg (h ▸ hc))]
  · simp [dictLookup_polyRowPairs_geometry]

/-- Witness for C5 (amended) at a concrete input: one geometry (modelled by
`7 : Nat`) and one attribute column `"Group"`. -/
theorem poly_to_geopandas_spec_witness :
    ("geometry" ∉ ["Group"]) ∧
    ((poly_to_geopandas [7] ["Group"]).1 = ["Group"] ++ ["geometry"] ∧
     (poly_to_geopandas [7] ["Group"]).2.length = [7].length ∧
     (poly_to_geopandas [7] ["Group"]).2 =
       [7].map (fun g =>
         ["Group"].map (fun _ => some (Sum.inl "")) ++ [some (Sum.inr g)]) ∧
     (poly_to_geopandas ([] : List Nat) ["Group"]).2 = []) :=
  ⟨by decide, poly_to_geopandas_spec [7] ["Group"] (by decide)⟩

/-! ## Polygon-Table Annotator (`PolyAnnotator.__init__`, lines 192-216)

The only raise path of the constructor is the validation at lines 208-212:

    poly_data = {c: self.polys.dimension_values(c, expanded=False)
                 for c in self.poly_columns}
    if len(set(len(v) for v in poly_data.values())) != 1:
        raise ValueError(...)

A shape is modelled by the per-vertex values of its annotation columns.
`vertex_columns` is read only when building the (non-raising) vertex table,
so it plays no part in the raise condition. -/

/-- One drawn shape: for each annotation column name, the list of that
column's values at the shape's vertices (all columns of a real element range
over the same vertex list). -/
abbrev ShapeData := List (String × List Int)

/-- The collection held by the shape layer (`self.polys`). -/
abbrev PolysData := List ShapeData

/-- The per-vertex values of column `c` in shape `s`. -/
def shapeValues (s : ShapeData) (c : String) : List Int :=
  ((s.find? (fun p => decide (p.1 = c))).map (fun p => p.2)).getD []

/-- Whether column `c` is scalar per shape: within every shape all of its
vertex values agree. -/
def scalarPerShape (polys : PolysData) (c : String) : Bool :=
  polys.all (fun s =>
    (shapeValues s c).all (fun v => decide (v = (shapeValues s c).headD 0)))

/-- Modelled from the spec: the external holoviews call
`polys.dimension_values(c, expanded=False)` (not part of src/). Per the
spec's description of the per-shape table build ("extracting, for each shape
column, the distinct value for each shape (one value expected per shape, not
per vertex)") and the source's own error message, it returns one value per
shape when the column is scalar within every shape, and otherwise the full
per-vertex (expanded) value array. -/
def dimensionValuesUnexpanded (polys : PolysData) (c : String) : List Int :=
  if scalarPerShape polys c then polys.map (fun s => (shapeValues s c).headD 0)
  else (polys.map (fun s => shapeValues s c)).flatten

/-- The lengths `len(v)` of the per-column arrays in the dict comprehension
at line 208, one per configured poly column. -/
def polyColumnLengths (poly_columns : List String) (polys : PolysData) : List Nat :=
  poly_columns.map (fun c => (dimensionValuesUnexpanded polys c).length)

/-- The validation test at line 209:
`len(set(len(v) for v in poly_data.values())) != 1` — `true` means
`PolyAnnotator.__init__` raises its `ValueError`. (Duplicate columns
collapse in the dict but produce equal lengths, so mapping over the
configured list is equivalent.) -/
def polyCheckRaises (poly_columns : List String) (polys : PolysData) : Bool :=
  decide ((polyColumnLengths poly_columns polys).dedup.length ≠ 1)

theorem polyCheckRaises_nil (polys : PolysData) : polyCheckRaises [] polys = true := rfl

theorem dedup_of_all_eq {α : Type} [DecidableEq α] (x : α) :
    ∀ l : List α, l ≠ [] → (∀ y ∈ l, y = x) → l.dedup = [x] := by
  intro l
  induction l with
  | nil => intro h; exact absurd rfl h
  | cons a as ih =>
      intro _ hall
      have ha : a = x := hall a (List.mem_cons_self _ _)
      by_cases has : as = []
      · subst has
        subst ha
        rfl
      · have hdedup := ih has (fun y hy => hall y (List.mem_cons_of_mem _ hy))
        have hmem : a ∈ as := by
          rcases List.exists_mem_of_ne_nil as has with ⟨b, hb⟩
          rw [ha, ← hall b (List.mem_cons_of_mem _ hb)]
          exact hb
        rw [List.dedup_cons_of_mem hmem, hdedup]

theorem polyColumnLengths_const (poly_columns : List String) (polys : PolysData)
    (hconst : ∀ c ∈ poly_columns, scalarPerShape polys c = true) :
    ∀ n ∈ polyColumnLengths poly_columns polys, n = polys.length := by
  intro n hn
  obtain ⟨c, hc, rfl⟩ := List.mem_map.mp hn
  unfold dimensionValuesUnexpanded
  rw [if_pos (hconst c hc), List.length_map]

/-- If every configured column is scalar per shape (and there is at least one
column), all unexpanded arrays have length = number of shapes, so the check
passes. -/
theorem polyCheckRaises_const_false (poly_columns : List String) (polys : PolysData)
    (hne : poly_columns ≠ []) (hconst : ∀ c ∈ poly_columns, scalarPerShape polys c = true) :
    polyCheckRaises poly_columns polys = false := by
  unfold polyCheckRaises
  rw [decide_eq_false_iff_not]
  intro hlen
  apply hlen
  rw [dedup_of_all_eq polys.length (polyColumnLengths poly_columns polys)
    (by
      intro h
      apply hne
      unfold polyColumnLengths at h
      exact List.map_eq_nil_iff.mp h)
    (polyColumnLengths_const poly_columns polys hconst)]
  rfl

/-- Whether `PolyAnnotator.__init__` raises: its single raise path is the
line-209 validation, which reads `poly_columns` and the shape data but never
`vertex_columns` (that list is used only to build the — never-raising —
vertex table at line 215). -/
def polyAnnotatorRaises (poly_columns vertex_columns : List String)
    (polys : PolysData) : Bool :=
  polyCheckRaises poly_columns polys

/-- C2 counterexample: with `poly_columns = []` no configured column has more
than one distinct value in any shape (vacuously), yet the constructor raises:
the set of array lengths is empty, so its size is 0 ≠ 1. This refutes the
claimed "raises iff some per-shape column varies within a shape". -/
theorem poly_table_validation_counterexample :
    polyCheckRaises [] [[("G", [1, 1])]] = true ∧
    (∀ c ∈ ([] : List String), scalarPerShape [[("G", [1, 1])]] c = true) := by
  exact ⟨rfl, by intro c hc; cases hc⟩

/-- C2 (amended): whenever `poly_columns` is nonempty and every configured
per-shape column is constant within each shape, construction does not raise
(all unexpanded arrays then have one common length, the number of shapes).
The converse of the original claim fails: the check only compares array
lengths, so it raises for an empty `poly_columns` and misses columns that
all vary. -/
theorem poly_table_validation_amended (poly_columns : List String) (polys : PolysData)
    (hne : poly_columns ≠ [])
    (hconst : ∀ c ∈ poly_columns, scalarPerShape polys c = true) :
    polyCheckRaises poly_columns polys = false :=
  polyCheckRaises_const_false poly_columns polys hne hconst

/-- Witness for C2 (amended) at a concrete input: one column `"Group"`,
one shape whose `"Group"` values agree on both vertices. -/
theorem poly_table_validation_amended_witness :
    ((["Group"] : List String) ≠ []) ∧
    (∀ c ∈ (["Group"] : List String),
      scalarPerShape [[("Group", [1, 1]), ("v", [1, 2])]] c = true) ∧
    polyCheckRaises ["Group"] [[("Group", [1, 1]), ("v", [1, 2])]] = false :=
  ⟨by decide, by decide,
    poly_table_validation_amended ["Group"] [[("Group", [1, 1]), ("v", [1, 2])]]
      (by decide) (by decide)⟩

/-- C7 counterexample: the claim says construction succeeds when the
per-shape column list is empty, but `polyAnnotatorRaises [] _ _` is `true`:
zero columns give zero distinct lengths and the check demands exactly one. -/
theorem poly_annotator_empty_poly_columns_counterexample :
    polyAnnotatorRaises [] ["Vertex"] [] = true := rfl

/-- C7 (amended): construction succeeds when the per-vertex column list is
empty (the raise condition never reads `vertex_columns`), provided
`poly_columns` is nonempty with per-shape-constant values; but it raises
whenever the per-shape column list `poly_columns` is empty. -/
theorem poly_annotator_empty_lists (vertex_columns poly_columns : List String)
    (polys : PolysData) (hne : poly_columns ≠ [])
    (hconst : ∀ c ∈ poly_columns, scalarPerShape polys c = true) :
    polyAnnotatorRaises poly_columns [] polys = false ∧
    polyAnnotatorRaises [] vertex_columns polys = true :=
  ⟨polyCheckRaises_const_false poly_columns polys hne hconst,
   polyCheckRaises_nil polys⟩

/-- Witness for C7 (amended) at a concrete input: default column `"Group"`,
two shapes, each with a constant `"Group"` value. -/
theorem poly_annotator_empty_lists_witness :
    ((["Group"] : List String) ≠ []) ∧
    (∀ c ∈ (["Group"] : List String),
      scalarPerShape [[("Group", [0, 0])], [("Group", [2, 2, 2])]] c = true) ∧
    (polyAnnotatorRaises ["Group"] [] [[("Group", [0, 0])], [("Group", [2, 2, 2])]] = false ∧
     polyAnnotatorRaises [] ["Size"] [[("Group", [0, 0])], [("Group", [2, 2, 2])]] = true) :=
  ⟨by decide, by decide,
    poly_annotator_empty_lists ["Size"] ["Group"]
      [[("Group", [0, 0])], [("Group", [2, 2, 2])]] (by decide) (by decide)⟩

/-! ## Point-Table Annotator (`PointAnnotator.__init__`, lines 233-243)

Lines 237-239:

    for col in self.point_columns:
        if col not in self.points:
            self.points = self.points.add_dimension(col, 0, None, True)

The positional arguments of the external `add_dimension` are
`(dimension, dim_pos, dim_val, vdim)`: the `0` is the insertion *position*
and the fill value passed for the new column is `None`. -/

/-- A point layer: its key-dimension names (coordinates), value-dimension
names, and one row of column/value pairs per point. `none` models a missing
value (Python `None`/NaN); numeric values are modelled as integers since the
claims only inspect presence and the value `0`. -/
structure PointsLayer where
  kdims : List String
  vdims : List String
  rows : List (List (String × Option Int))

/-- Modelled from the spec: the external holoviews call
`Dataset.add_dimension(dim, dim_pos, dim_val, vdim=True)` (not in src/) —
inserts `dim` at position `dim_pos` among the value dimensions and gives the
new column the value `dim_val` in every existing row. -/
def add_dimension (pts : PointsLayer) (dim : String) (dim_pos : Nat)
    (dim_val : Option Int) : PointsLayer :=
  { kdims := pts.kdims,
    vdims := pts.vdims.insertIdx dim_pos dim,
    rows := pts.rows.map (fun r => r ++ [(dim, dim_val)]) }

/-- The dimension-extension loop of `PointAnnotator.__init__`
(lines 237-239); `col not in self.points` is membership among the layer's
dimensions. -/
def pointAnnotatorPoints (point_columns : List String) (pts : PointsLayer) :
    PointsLayer :=
  point_columns.foldl
    (fun pts col =>
      if (pts.kdims ++ pts.vdims).contains col then pts
      else add_dimension pts col 0 none) pts

/-- The values of column `c` across the rows of the layer. These are also the
rows of the linked point table (lines 241-242): `gv.project` recomputes only
the coordinate columns and `Table(projected)` keeps one row per point. -/
def columnValues (pts : PointsLayer) (c : String) : List (Option (Option Int)) :=
  pts.rows.map (fun r => dictLookup r c)

/-- The C6 scenario input: three initial points carrying only coordinates,
with no `"Size"` value. -/
def threePoints : PointsLayer :=
  { kdims := ["x", "y"], vdims := [],
    rows := [[("x", some 0), ("y", some 0)],
             [("x", some 1), ("y", some 1)],
             [("x", some 2), ("y", some 2)]] }

/-- C6 counterexample: with `point_columns = ['Size']` and three initial
points lacking a `"Size"` value, the new `"Size"` column is filled with the
`dim_val` argument of the `add_dimension` call — which the source passes as
`None`, not `0` (the `0` in `add_dimension(col, 0, None, True)` is the
insertion position). So no point gets `Size = 0`. -/
theorem point_size_default_counterexample :
    columnValues (pointAnnotatorPoints ["Size"] threePoints) "Size" =
      [some none, some none, some none] ∧
    columnValues (pointAnnotatorPoints ["Size"] threePoints) "Size" ≠
      [some (some 0), some (some 0), some (some 0)] := by
  exact ⟨rfl, by decide⟩

/-- C6 (amended): the constructed point layer gains a `"Size"` value
dimension, the layer (and hence the linked table) still has three rows, and
each point's `"Size"` value is missing (`None`), not `0`. -/
theorem point_size_default_amended :
    (pointAnnotatorPoints ["Size"] threePoints).vdims = ["Size"] ∧
    (pointAnnotatorPoints ["Size"] threePoints).rows.length = 3 ∧
    columnValues (pointAnnotatorPoints ["Size"] threePoints) "Size" =
      [some none, some none, some none] := by
  exact ⟨rfl, rfl, rfl⟩

/-! ## Base Annotator pretty-printer (`GeoAnnotator.pprint`, lines 106-112)

    params = dict(self.get_param_values())
    name = params.pop('name')
    string = '%s\n%s\n\n' % (name, '-'*len(name))
    for item in sorted(params.items()):
        string += '  %s: %s\n' % (item)

Parameter values are modelled by their rendered string. -/

/-- One output line `'  %s: %s\n' % item` for a key/value pair. -/
def paramLine (p : String × String) : String := "  " ++ p.1 ++ ": " ++ p.2 ++ "\n"

/-- The title block `'%s\n%s\n\n' % (name, '-'*len(name))`. -/
def pprintHeader (name : String) : String :=
  name ++ "\n" ++ String.mk (List.replicate name.length '-') ++ "\n\n"

/-- `params.pop('name')`: the remaining items (a dict has unique keys, and
`get_param_values` always includes a `'name'` entry). -/
def popName (params : List (String × String)) : List (String × String) :=
  params.filter (fun p => decide (¬ p.1 = "name"))

/-- The Python tuple comparison used by `sorted(params.items())`:
lexicographic on (key, value). Keys in a dict are unique, so the value
component is never actually compared. -/
def pairLe (p q : String × String) : Bool :=
  decide (p.1 < q.1) || (decide (p.1 = q.1) && decide (p.2 ≤ q.2))

/-- `sorted(params.items())` — Python's sort is a stable merge sort. -/
def pprintItems (params : List (String × String)) : List (String × String) :=
  (popName params).mergeSort pairLe

/-- Concatenation of a list of output lines. -/
def concatStrings (l : List String) : String := l.foldr (fun a b => a ++ b) ""

/-- The full string accumulated by `GeoAnnotator.pprint` before printing. -/
def pprint (name : String) (params : List (String × String)) : String :=
  (pprintItems params).foldl (fun s p => s ++ paramLine p) (pprintHeader name)

theorem foldl_lines :
    ∀ (l : List (String × String)) (s : String),
      l.foldl (fun s p => s ++ paramLine p) s = s ++ concatStrings (l.map paramLine) := by
  intro l
  induction l with
  | nil => intro s; rw [List.foldl_nil, List.map_nil]; exact (String.append_empty s).symm
  | cons p ps ih =>
      intro s
      rw [List.foldl_cons, ih, List.map_cons]
      show _ = s ++ (paramLine p ++ concatStrings (ps.map paramLine))
      rw [String.append_assoc]

theorem pairLe_total (p q : String × String) : (pairLe p q || pairLe q p) = true := by
  unfold pairLe
  rcases lt_trichotomy p.1 q.1 with h | h | h
  · simp [h]
  · rcases le_total p.2 q.2 with h2 | h2 <;> simp [h, h2]
  · simp [h, asymm h]

theorem pairLe_trans (p q r : String × String) :
    pairLe p q = true → pairLe q r = true → pairLe p r = true := by
  unfold pairLe
  simp only [Bool.or_eq_true, Bool.and_eq_true, decide_eq_true_eq]
  rintro (h1 | ⟨h1, h1'⟩) (h2 | ⟨h2, h2'⟩)
  · exact Or.inl (lt_trans h1 h2)
  · exact Or.inl (h2 ▸ h1)
  · exact Or.inl (h1 ▸ h2)
  · exact Or.inr ⟨h1.trans h2, le_trans h1' h2'⟩

/-- C9: the pretty-printer output is the title block followed by one
`'  key: value\n'` line per configuration parameter; the listed items are
exactly the parameters other than the instance name (as a permutation of the
dict items), and they appear in alphabetical order of key. -/
theorem pprint_spec (name : String) (params : List (String × String)) :
    pprint name params =
      pprintHeader name ++ concatStrings ((pprintItems params).map paramLine) ∧
    List.Perm (pprintItems params) (params.filter (fun p => decide (¬ p.1 = "name"))) ∧
    ((pprintItems params).map (fun p => p.1)).Sorted (· ≤ ·) := by
  refine ⟨foldl_lines _ _, ?_, ?_⟩
  · exact List.mergeSort_perm (popName params) pairLe
  · have hs := List.sorted_mergeSort pairLe_trans pairLe_total (popName params)
    have hmono : ∀ a b : String × String, pairLe a b = true → a.1 ≤ b.1 := by
      intro a b h
      unfold pairLe at h
      simp only [Bool.or_eq_true, Bool.and_eq_true, decide_eq_true_eq] at h
      rcases h with h | ⟨h, _⟩
      · exact le_of_lt h
      · exact le_of_eq h
    exact List.Pairwise.map _ hmono hs
